import Mathlib

/-!
Verification of the scout market-value pipeline: a shallow embedding of
the relevant parts of `utils.py`, `repository.py`,
`transfermarkt_client.py` and `app.py`.  Python strings are modelled as
`List Char`, CPython floats as exact rationals, fallible calls as
`Except`/`Option`.
-/

namespace Scout

/-- Python whitespace as used by `str.strip`, `str.split` and the regex
class matched by a backslash-s (ASCII range; the inputs under study
contain no exotic Unicode whitespace). -/
def isPySpace (c : Char) : Bool :=
  c == ' ' || c == '\t' || c == '\n' || c == '\r' || c == '\u000B' || c == '\u000C'

/-- Python `str.strip()`. -/
def pyStrip (s : List Char) : List Char :=
  ((s.dropWhile isPySpace).reverse.dropWhile isPySpace).reverse

/-- Python `str.lower()` / `str.casefold()` on one character (ASCII
model; the two functions agree on the inputs under study). -/
def pyLowerChar (c : Char) : Char :=
  if 'A' ≤ c ∧ c ≤ 'Z' then Char.ofNat (c.toNat + 32) else c

/-- Python `str.lower()` on a string. -/
def pyLowerS (s : List Char) : List Char := s.map pyLowerChar

/-- ASCII digit test (regex class `[0-9]`, Python `\d` on ASCII text). -/
def isDigitC (c : Char) : Bool := '0' ≤ c && c ≤ '9'

/-- Python substring containment, `needle in hay`; the empty needle is
contained in everything. -/
def isSubstr (needle : List Char) : List Char → Bool
  | [] => needle.isEmpty
  | c :: rest => needle.isPrefixOf (c :: rest) || isSubstr needle rest

/-- The recursion behind `pyReplace`, structural on a fuel that starts at
the string length: every step consumes at least one input character, so
the fuel never runs out for the initial call. -/
def pyReplaceGo (pat rep : List Char) : Nat → List Char → List Char
  | _, [] => []
  | 0, s => s
  | fuel + 1, c :: rest =>
    if pat.isPrefixOf (c :: rest) && !pat.isEmpty then
      rep ++ pyReplaceGo pat rep fuel (rest.drop (pat.length - 1))
    else
      c :: pyReplaceGo pat rep fuel rest

/-- Python `str.replace(pat, rep)` for a non-empty `pat`. -/
def pyReplace (pat rep s : List Char) : List Char :=
  pyReplaceGo pat rep s.length s

/-- Decimal value of an ASCII digit string, e.g. `"750"` to `750`. -/
def natVal (s : List Char) : Nat :=
  s.foldl (fun acc c => acc * 10 + (c.toNat - '0'.toNat)) 0

/-- A CPython float modelled as an exact fraction (numerator over a
positive denominator, not necessarily reduced).  Every finite binary64
double is such a fraction; the parser only builds floats through
`toDouble`, which performs the 53-bit rounding, so the fractions it
holds are exactly the doubles CPython computes. -/
structure PyFloat where
  num : Int
  den : Nat

/-- Bit length of a natural number, by structural recursion on a fuel
that starts at the number itself (the recursion halves the argument, so
the fuel never runs out). -/
def bitLenGo : Nat → Nat → Nat
  | 0, _ => 0
  | fuel + 1, n => if n = 0 then 0 else bitLenGo fuel (n / 2) + 1

/-- Bit length of a natural number: 0 for 0, and otherwise one more
than the floor base-2 logarithm. -/
def bitLen (n : Nat) : Nat := bitLenGo n n

/-- Whether `2 ^ e ≤ n / d` for positive naturals `n`, `d` and a signed
exponent `e`. -/
def pow2LE (n d : Nat) (e : Int) : Bool :=
  if 0 ≤ e then d <<< e.toNat ≤ n else d ≤ n <<< (-e).toNat

/-- Round the exact nonnegative rational `n / d` (with `d` positive) to
the nearest binary64 double, ties to even, returned as an exact dyadic
fraction: the floor base-2 exponent `e0` is located with `pow2LE`, the
53-bit significand is the half-even rounding of `n / d * 2 ^ (52 - e0)`,
and a carry out of 53 bits bumps the exponent.  This is CPython
semantics: `float(<numeral>)` is correctly rounded decimal-to-double
conversion, and float products are correctly rounded too.  The exponent
is unbounded here: inputs big enough to overflow binary64 (integer
parts of 309 or more digits) make CPython raise OverflowError instead
of returning a value and are kept out of the theorems' domains, and
values small enough for IEEE-754 subnormal rounding are far below one
half either way, so each integer the parser returns agrees with
CPython everywhere the theorems range. -/
def toDoubleNat (n d : Nat) : Int × Nat :=
  if n = 0 then (0, 1)
  else
    let a : Int := bitLen n - 1
    let b : Int := bitLen d - 1
    let e0 : Int := if pow2LE n d (a - b) then a - b else a - b - 1
    let s : Int := 52 - e0
    let N := if 0 ≤ s then n <<< s.toNat else n
    let D := if 0 ≤ s then d else d <<< (-s).toNat
    let m0 := N / D
    let r2 := 2 * (N % D)
    let m := if r2 < D then m0 else if D < r2 then m0 + 1
      else if m0 % 2 = 0 then m0 else m0 + 1
    let m2 := if m = 2 ^ 53 then 2 ^ 52 else m
    let e2 : Int := if m = 2 ^ 53 then e0 + 1 else e0
    if 52 ≤ e2 then (((m2 <<< (e2 - 52).toNat : Nat) : Int), 1)
    else ((m2 : Int), 2 ^ (52 - e2).toNat)

/-- Round an exact rational of either sign to the nearest binary64
double (rounding is symmetric about zero). -/
def toDouble (num : Int) (den : Nat) : PyFloat :=
  if 0 ≤ num then
    ⟨(toDoubleNat num.toNat den).1, (toDoubleNat num.toNat den).2⟩
  else
    ⟨-(toDoubleNat (-num).toNat den).1, (toDoubleNat (-num).toNat den).2⟩

/-- Scale a float by a natural number (`base * 1_000_000` and
`base * 1_000` in the parser): float multiplication by an exact integer
constant is correctly rounded, the exact product rounded back to a
double. -/
def PyFloat.scale (q : PyFloat) (m : Nat) : PyFloat :=
  toDouble (q.num * (m : Int)) q.den

/-- Value of the matched numeric group `<digits>[(.|,)<digits>]?` as
`float(num)` reads it once the comma separator is rewritten to a dot:
the exact decimal fraction `(intPart * 10 ^ k + frac) / 10 ^ k` rounded
to the nearest binary64 double, which is what CPython's `float` of the
numeral returns. -/
def fracVal (intPart : List Char) : Option (List Char) → PyFloat
  | none => toDouble (natVal intPart : Int) 1
  | some f => toDouble (natVal intPart * 10 ^ f.length + natVal f : Nat) (10 ^ f.length)

/-- Python `round` to the nearest integer with ties to even: with
`f = ⌊q⌋` and remainder `r = q - f`, compare `r` against one half by
cross-multiplying (`r < 1/2` iff `2 * (num - f * den) < den`).  On the
exact value of a double this is precisely CPython's `round(float)`. -/
def pyround (q : PyFloat) : Int :=
  let f : Int := Int.fdiv q.num (q.den : Int)
  let r2 : Int := 2 * (q.num - f * (q.den : Int))
  if r2 < (q.den : Int) then f
  else if (q.den : Int) < r2 then f + 1
  else if f % 2 = 0 then f else f + 1

/-- The suffix-pattern match of `parse_market_value_to_int` (`utils.py`
line 101): the anchored regex
`([0-9]+(?:[.,][0-9]+)?)` then optional whitespace then an optional
`[mMkK]` suffix, applied to the input with its space characters removed;
yields the numeric value of the first group and the suffix letter. -/
def matchMoney (s : List Char) : Option (PyFloat × Option Char) :=
  let d1 := s.takeWhile isDigitC
  let r1 := s.dropWhile isDigitC
  if d1.isEmpty then none
  else
    let fracRest : Option (List Char) × List Char :=
      match r1 with
      | [] => (none, [])
      | c :: rest =>
        if (c == '.' || c == ',') && !(rest.takeWhile isDigitC).isEmpty then
          (some (rest.takeWhile isDigitC), rest.dropWhile isDigitC)
        else (none, c :: rest)
    let r3 := fracRest.2.dropWhile isPySpace
    match r3 with
    | [] => some (fracVal d1 fracRest.1, none)
    | [c] =>
      if c == 'm' || c == 'M' || c == 'k' || c == 'K' then
        some (fracVal d1 fracRest.1, some c)
      else none
    | _ => none

/-- A Python value as received by `parse_market_value_to_int`: `None`, an
`int`, a float NaN, an ordinary float (modelled exactly as a rational),
or a `str`. -/
inductive PyVal where
  | pynull
  | pyint (n : Int)
  | pynan
  | pyfloat (q : PyFloat)
  | pystr (s : List Char)

/-- The currency-stripping chain of `parse_market_value_to_int`
(`utils.py` lines 97-99): euro, dollar and pound signs, their two known
mis-encoded renderings, then non-breaking spaces to spaces and a final
strip. -/
def stripCurrency (s : List Char) : List Char :=
  pyStrip (pyReplace ['\u00A0'] [' ']
    (pyReplace "Â£".data []
      (pyReplace "â‚¬".data []
        (pyReplace ['£'] []
          (pyReplace ['$'] []
            (pyReplace ['€'] [] s))))))

/-- The non-null tail of `parse_market_value_to_int` (`utils.py`
lines 97-114): strip currency glyphs, try the suffix pattern on the
space-free text with the suffix multipliers, else fall through to
stripping every non-digit character. -/
def parseMoneyStr (s0 : List Char) : Option Int :=
  let s := stripCurrency s0
  match matchMoney (s.filter (fun c => c ≠ ' ')) with
  | some (base, suffix) =>
    if suffix = some 'm' ∨ suffix = some 'M' then some (pyround (base.scale 1000000))
    else if suffix = some 'k' ∨ suffix = some 'K' then some (pyround (base.scale 1000))
    else some (pyround base)
  | none =>
    let digits := s.filter isDigitC
    if digits = [] then none else some (natVal digits : Int)

/-- `utils.py` `parse_market_value_to_int` (lines 84-115). -/
def parse_market_value_to_int : PyVal → Option Int
  | .pynull => none
  | .pynan => none
  | .pyint n => some n
  | .pyfloat q => some (pyround q)
  | .pystr raw =>
    let s0 := pyStrip raw
    if s0 = [] ∨ pyLowerS s0 = "null".data ∨ pyLowerS s0 = "none".data
        ∨ pyLowerS s0 = "nan".data then
      none
    else
      parseMoneyStr s0


/-- Collapse runs of whitespace to one space, the regex substitution of
a whitespace run by a single space in `normalize_text`. -/
def collapseWS : List Char → List Char
  | [] => []
  | [c] => if isPySpace c then [' '] else [c]
  | c :: d :: rest =>
    if isPySpace c && isPySpace d then collapseWS (d :: rest)
    else (if isPySpace c then ' ' else c) :: collapseWS (d :: rest)

/-- Combining-mark removal after NFKD normalization (`utils.py` line 70):
NFKD decomposition is modelled as the identity (the inputs under study
are ASCII, which NFKD leaves unchanged) and combining marks as the
Unicode combining-diacritics block. -/
def stripCombining (s : List Char) : List Char :=
  s.filter (fun c => !(0x300 ≤ c.toNat && c.toNat ≤ 0x36F))

/-- `utils.py` `normalize_text` (lines 66-72): strip, collapse internal
whitespace, strip diacritic marks, casefold. -/
def normalize_text (s : List Char) : List Char :=
  pyLowerS (stripCombining (collapseWS (pyStrip s)))

/-- `utils.py` `normalize_player_name`. -/
def normalize_player_name (s : List Char) : List Char := normalize_text s

/-- `utils.py` `normalize_club_name`. -/
def normalize_club_name (s : List Char) : List Char := normalize_text s

/-- The worker of `splitWS`; `cur` is the reversed current token. -/
def splitWSAux (cur : List Char) : List Char → List (List Char)
  | [] => if cur.isEmpty then [] else [cur.reverse]
  | c :: rest =>
    if isPySpace c then
      if cur.isEmpty then splitWSAux [] rest
      else cur.reverse :: splitWSAux [] rest
    else splitWSAux (c :: cur) rest

/-- Python `str.split()` with no argument: split on whitespace runs and
drop empty pieces. -/
def splitWS (s : List Char) : List (List Char) := splitWSAux [] s

/-- The token cleaner inside `score_name`: casefold, then keep only the
letters `a`-`z` to tolerate encoding and punctuation noise. -/
def cleanToken (tok : List Char) : List Char :=
  (pyLowerS tok).filter (fun c => 'a' ≤ c && c ≤ 'z')

/-- Length of the common prefix of two character lists (the zip loop of
`score_name` counting agreeing leading characters). -/
def commonPrefLen : List Char → List Char → Nat
  | a :: as, b :: bs => if a = b then commonPrefLen as bs + 1 else 0
  | _, _ => 0

/-- The surname-plus-given-name heuristic of `score_name` (`utils.py`
lines 137-158), reached when the parts lists of both names have at least
two tokens. -/
def surnameHeuristic (qParts rParts : List (List Char)) : Nat :=
  let qFirst := cleanToken (qParts.headD [])
  let rFirst := cleanToken (rParts.headD [])
  let qLast := cleanToken (qParts.getLastD [])
  let rLast := cleanToken (rParts.getLastD [])
  if qFirst.isEmpty || rFirst.isEmpty || qLast.isEmpty || rLast.isEmpty then 0
  else
    let minLen := min qLast.length rLast.length
    let sameLast :=
      qLast == rLast
      || (decide (4 ≤ minLen)
          && ((rLast.take minLen).isPrefixOf qLast
              || (qLast.take minLen).isPrefixOf rLast))
      || decide (5 ≤ commonPrefLen qLast rLast)
    let firstPref :=
      decide (3 ≤ qFirst.length)
      && (qFirst.isPrefixOf rFirst || rFirst.isPrefixOf qFirst)
    if sameLast && firstPref then 1 else 0

/-- `utils.py` `score_name` (lines 118-160): 3 on normalized equality,
2 on substring containment either way, 1 on enough shared tokens or the
surname heuristic, else 0; an empty candidate name scores 0 at once. -/
def score_name (query_name row_name : List Char) : Nat :=
  if row_name = [] then 0
  else
    let q := normalize_player_name query_name
    let r := normalize_player_name row_name
    if q = r then 3
    else if isSubstr q r || isSubstr r q then 2
    else
      let qTokens := (splitWS q).dedup
      let rTokens := (splitWS r).dedup
      if !qTokens.isEmpty
          && decide (max 1 (min qTokens.length 2)
              ≤ (qTokens.filter (fun t => rTokens.contains t)).length) then 1
      else
        match splitWS q, splitWS r with
        | qa :: qb :: qrest, ra :: rb :: rrest =>
          surnameHeuristic (qa :: qb :: qrest) (ra :: rb :: rrest)
        | _, _ => 0

/-- The label loop of `score_squad` (`utils.py` lines 168-186), carrying
the best (score, label) pair found so far: an exact normalized match
returns 3 at once; substring containment upgrades the best to 2, shared
tokens to 1; labels that normalize to empty are skipped. -/
def score_squad_loop (q : List Char) (best : Nat × List Char) :
    List (List Char) → Nat × List Char
  | [] => best
  | club :: rest =>
    let c := normalize_club_name club
    if c = [] then score_squad_loop q best rest
    else if q = c then (3, club)
    else if isSubstr q c || isSubstr c q then
      if best.1 < 2 then score_squad_loop q (2, club) rest
      else score_squad_loop q best rest
    else
      let qTokens := (splitWS q).dedup
      let cTokens := (splitWS c).dedup
      if !qTokens.isEmpty && qTokens.any (fun t => cTokens.contains t)
          && decide (best.1 < 1) then
        score_squad_loop q (1, club) rest
      else score_squad_loop q best rest

/-- `utils.py` `score_squad` (lines 163-187): an empty query scores 0
with the first label (or the empty string); otherwise run the label
loop starting from best score 0. -/
def score_squad (query_squad : List Char) (row_clubs : List (List Char)) :
    Nat × List Char :=
  if query_squad = [] then (0, row_clubs.headD [])
  else score_squad_loop (normalize_club_name query_squad) (0, row_clubs.headD []) row_clubs

/-- `utils.py` `is_blank` (lines 190-197) on string cells: the
repository loads every cell as a literal string, so the `None` and NaN
branches of the source apply only to non-string values outside this
model. -/
def is_blank (v : List Char) : Bool :=
  let s := pyLowerS (pyStrip v)
  s == [] || s == "nan".data || s == "none".data || s == "null".data



/-- The eight columns of the persisted table (`repository.py` HEADERS):
Player, Squad, Matched Club, Transfermarkt URL, Market Value (raw),
Market Value (int), Updated At, Status. -/
inductive Col where
  | player | squad | matchedClub | url | mvRaw | mvInt | updatedAt | status
deriving DecidableEq

/-- A persisted row: one string cell per column (the repository loads
the table with string dtype and no NA coercion, so every cell is a
literal string). -/
def Row : Type := Col → List Char

/-- `repository.py` `merge_missing_fields` (lines 78-91): for each forced
column, write the fetched value only when the current cell is blank;
then recompute the status from the merged raw-value and URL cells (`ok`
when the raw value is non-blank, else `value_not_found` when the URL is
non-blank, else leave the merged status). -/
def merge_missing_fields (current fetched : Row) (force : Col → Bool) : Row :=
  let filled : Row := fun col =>
    if force col && is_blank (current col) then fetched col else current col
  fun col =>
    if col = Col.status then
      if !is_blank (filled Col.mvRaw) then "ok".data
      else if !is_blank (filled Col.url) then "value_not_found".data
      else filled Col.status
    else filled col

/-- The forced-column set passed to `merge_missing_fields` by the
backfill pass (`app.py` lines 215-222). -/
def backfillForce (c : Col) : Bool :=
  c == Col.url || c == Col.mvRaw || c == Col.mvInt || c == Col.matchedClub
    || c == Col.updatedAt || c == Col.status

/-- The enumerated row scan of `iter_rows_from` (`repository.py`
lines 57-68) with the running dataframe index made explicit: skip rows
before the 1-based start row, skip rows whose player cell is the empty
string or lowercases to `nan`, keep `(index, player, squad)` in order. -/
def iter_rows_aux (start_row : Nat) : Nat → List Row → List (Nat × List Char × List Char)
  | _, [] => []
  | idx, row :: rest =>
    if idx + 1 < start_row then iter_rows_aux start_row (idx + 1) rest
    else
      let player := row Col.player
      if player = [] ∨ pyLowerS player = "nan".data then
        iter_rows_aux start_row (idx + 1) rest
      else (idx, player, row Col.squad) :: iter_rows_aux start_row (idx + 1) rest

/-- `repository.py` `iter_rows_from`, over the in-memory table as a list
of rows. -/
def iter_rows_from (df : List Row) (start_row : Nat) :
    List (Nat × List Char × List Char) :=
  iter_rows_aux start_row 0 df

/-- One ephemeral search-result candidate as either tier extracts it
from a result row: profile link, displayed name, affiliation-label
candidates (inline club links and image captions), raw value text. -/
structure Cand where
  href : List Char
  name : List Char
  clubs : List (List Char)
  mv : List Char

/-- The three-component comparison key of both selection loops, the
Python tuple `candidate[:3]`: composite score
`name_score*10 + squad_score*4 + (1 if mv_raw else 0)`, then name score,
then squad score. -/
def candKey (pn sq : List Char) (c : Cand) : Nat × Nat × Nat :=
  let ns := score_name pn c.name
  let ss := (score_squad sq c.clubs).1
  (ns * 10 + ss * 4 + (if c.mv = [] then 0 else 1), ns, ss)

/-- Strict lexicographic comparison of two keys, the Python tuple
comparison `candidate[:3] > best[:3]`. -/
def keyGT (a b : Nat × Nat × Nat) : Bool :=
  decide (b.1 < a.1 ∨ (a.1 = b.1 ∧ (b.2.1 < a.2.1 ∨ (a.2.1 = b.2.1 ∧ b.2.2 < a.2.2))))

/-- The selection loop shared verbatim by `_find_best_http` and
`_find_best_browser` (`transfermarkt_client.py` lines 150-195 and
240-276): skip candidates whose name score is 0, replace the best
candidate exactly when the new key is strictly greater. -/
def find_best_loop (pn sq : List Char) (best : Option Cand) :
    List Cand → Option Cand
  | [] => best
  | c :: rest =>
    if score_name pn c.name = 0 then find_best_loop pn sq best rest
    else
      match best with
      | none => find_best_loop pn sq (some c) rest
      | some b =>
        if keyGT (candKey pn sq c) (candKey pn sq b) then
          find_best_loop pn sq (some c) rest
        else find_best_loop pn sq best rest

/-- The `(href, best_club, mv_raw)` triple both tiers return for the
winning candidate; the club is the best-matching label chosen by
`score_squad`. -/
def candResult (sq : List Char) (c : Cand) : List Char × List Char × List Char :=
  (c.href, (score_squad sq c.clubs).2, c.mv)

/-- `_find_best_http` (`transfermarkt_client.py` lines 128-197) given
the candidate rows extracted from the fetched search page; the HTTP
transport and the HTML regular expressions form the extraction stage
that produces this list (a transport failure produces no list at all,
handled at the `process_player` level). -/
def find_best_http_sel (pn sq : List Char) (cands : List Cand) :
    Option (List Char × List Char × List Char) :=
  (find_best_loop pn sq none cands).map (candResult sq)

/-- `_find_best_browser` (`transfermarkt_client.py` lines 199-278) given
the per-row candidates extracted from the rendered DOM (one candidate
per distinct result row, as the seen-rows set enforces); links carrying
an empty `href` are skipped before scoring. -/
def find_best_browser_sel (pn sq : List Char) (cands : List Cand) :
    Option (List Char × List Char × List Char) :=
  (find_best_loop pn sq none (cands.filter (fun c => !c.href.isEmpty))).map (candResult sq)

/-- The fallback-trigger test of `process_player`
(`transfermarkt_client.py` line 283): the browser tier is attempted
exactly when the HTTP tier produced no match or the matched raw value
text strips to the empty string
(`match is None or not (match[2] and str(match[2]).strip())`). -/
def fallback_trigger (m : Option (List Char × List Char × List Char)) : Bool :=
  match m with
  | none => true
  | some t => decide (pyStrip t.2.2 = [])

/-- The match-selection and tier-tagging control flow of
`process_player` (lines 282-289): `httpFetch` and `browserFetch` are the
candidate lists the two tiers would extract, `none` modelling a
transport failure or an empty results page; the tag becomes `browser`
only when the fallback ran and returned a match. -/
def final_match (pn sq : List Char)
    (httpFetch browserFetch : Option (List Cand)) :
    Option (List Char × List Char × List Char) × List Char :=
  let httpRes := httpFetch.bind (find_best_http_sel pn sq)
  if fallback_trigger httpRes then
    match browserFetch.bind (find_best_browser_sel pn sq) with
    | some bm => (some bm, "browser".data)
    | none => (httpRes, "http".data)
  else (httpRes, "http".data)

/-- The result-row payload built by `process_player` and by the worker
error path: the string fields of the row dict, with the parsed integer
as an option (`none` stands for the empty-string cell the code writes
when no integer is available). -/
structure ResRow where
  player : List Char
  squad : List Char
  matchedClub : List Char
  url : List Char
  mvRaw : List Char
  mvInt : Option Int
  updatedAt : List Char
  status : List Char

/-- The row construction of `process_player` (lines 291-314) from the
final match: no match gives the `not_found` row; otherwise the status is
`ok` exactly when the raw value text is non-empty, and the integer value
is the parser applied to the raw text. `now` stands for the wall-clock
timestamp string. -/
def build_result (now pn sq : List Char)
    (m : Option (List Char × List Char × List Char)) : ResRow :=
  match m with
  | none =>
    { player := pn, squad := sq, matchedClub := [], url := [], mvRaw := [],
      mvInt := none, updatedAt := now, status := "not_found".data }
  | some t =>
    { player := pn, squad := sq, matchedClub := t.2.1, url := t.1, mvRaw := t.2.2,
      mvInt := if t.2.2 = [] then none else parse_market_value_to_int (.pystr t.2.2),
      updatedAt := now,
      status := if t.2.2 = [] then "value_not_found".data else "ok".data }

/-- `transfermarkt_client.py` `process_player` (lines 280-314): the
selected match determines the row, the tier tag rides along. -/
def process_player (now pn sq : List Char)
    (httpFetch browserFetch : Option (List Cand)) : ResRow × List Char :=
  (build_result now pn sq (final_match pn sq httpFetch browserFetch).1,
   (final_match pn sq httpFetch browserFetch).2)

/-- One queued job: stable row index, player, squad (`app.py` queues the
triples produced by `iter_rows_from`). -/
structure Job where
  idx : Nat
  player : List Char
  squad : List Char

/-- The error row built at the worker boundary (`app.py` lines 72-83)
when the client call raises; `kind` models `type(exc).__name__`. -/
def error_row (now player squad kind : List Char) : ResRow :=
  { player := player, squad := squad, matchedClub := [], url := [], mvRaw := [],
    mvInt := none, updatedAt := now, status := "error:".data ++ kind }

/-- The per-job body of `_worker_loop` (`app.py` lines 59-93) draining
the worker's task sequence: the client call either returns a
`(row, source)` pair or raises with some exception kind, and in either
case exactly one result is pushed for the job.  Threading, the bounded
queue timeout and the cancellation flag only bound which jobs a worker
pulls; they never change the per-job behaviour modelled here. -/
def worker_loop (now : List Char)
    (resolve : Job → Except (List Char) (ResRow × List Char)) :
    List Job → List (Nat × ResRow × List Char)
  | [] => []
  | j :: rest =>
    (match resolve j with
     | .ok rs => (j.idx, rs.1, rs.2)
     | .error k => (j.idx, error_row now j.player j.squad k, "error".data))
      :: worker_loop now resolve rest

/-- Modelled from the spec (section 4.2, candidate selection): of a list
of candidates, the first-encountered one attaining the lexicographic
maximum of the comparison key; on a key tie the earlier candidate is
kept. -/
def argmaxFirst (keyf : Cand → Nat × Nat × Nat) : List Cand → Option Cand
  | [] => none
  | c :: rest =>
    match argmaxFirst keyf rest with
    | none => some c
    | some m => if keyGT (keyf m) (keyf c) then some m else some c

/-- Modelled from the spec (section 4.2, candidate selection): discard
candidates with name score 0, then keep the first maximizer of
`(composite, name_score, affiliation_score)`. -/
def selectSpec (pn sq : List Char) (cands : List Cand) : Option Cand :=
  argmaxFirst (candKey pn sq) (cands.filter (fun c => score_name pn c.name ≠ 0))



/-- A concrete persisted row whose status and raw-value cells are both
non-blank while every other cell is blank. -/
def rowStatusMismatch : Row := fun col =>
  match col with
  | Col.status => "not_found".data
  | Col.mvRaw => "€5m".data
  | _ => []

/-- A concrete persisted row whose player cell is the string `None`. -/
def rowNonePlayer : Row := fun col =>
  match col with
  | Col.player => "None".data
  | Col.squad => "x".data
  | _ => []

/-- Claim C1, counterexample: with the backfill forced-column set (which
contains Status), a Status cell that is non-blank before the merge is
rewritten by the status recomputation whenever the raw-value cell is
non-blank, so it does not keep its value. -/
theorem merge_status_overwrites_nonblank_cex :
    backfillForce Col.status = true
    ∧ is_blank (rowStatusMismatch Col.status) = false
    ∧ merge_missing_fields rowStatusMismatch rowStatusMismatch backfillForce Col.status
        = "ok".data
    ∧ merge_missing_fields rowStatusMismatch rowStatusMismatch backfillForce Col.status
        ≠ rowStatusMismatch Col.status := by
  refine ⟨rfl, rfl, ?_, ?_⟩ <;> decide

/-- Claim C1, amended: after `merge_missing_fields`, every forced-column
cell other than Status that was non-blank before the call holds the same
value after; only the Status cell is recomputed and may change. -/
theorem merge_preserves_nonstatus_nonblank
    (current fetched : Row) (force : Col → Bool) (col : Col)
    (hf : force col = true) (hcol : col ≠ Col.status)
    (hb : is_blank (current col) = false) :
    merge_missing_fields current fetched force col = current col := by
  simp [merge_missing_fields, hcol, hb]

/-- Claim C1, witness: the non-blank raw-value cell, a forced non-Status
column, is unchanged by the merge on the concrete row above. -/
theorem merge_preserves_nonstatus_nonblank_witness :
    merge_missing_fields rowStatusMismatch rowStatusMismatch backfillForce Col.mvRaw
      = rowStatusMismatch Col.mvRaw :=
  merge_preserves_nonstatus_nonblank rowStatusMismatch rowStatusMismatch
    backfillForce Col.mvRaw (by decide) (by decide) (by decide)

/-- Claim C3, counterexample: on the empty string the early guard of
`score_name` fires, so the self-comparison scores 0, not 3. -/
theorem score_name_empty_self_cex :
    score_name "".data "".data = 0 ∧ score_name "".data "".data ≠ 3 := by
  exact ⟨by decide, by decide⟩

/-- Claim C3, amended: self-comparison yields the maximal score 3 for
every non-empty string, whitespace-only strings included; the empty
string scores 0 through the empty-candidate guard. -/
theorem score_name_self_max (x : List Char) (hx : x ≠ []) :
    score_name x x = 3 := by
  simp [score_name, hx]

/-- Claim C3, witness: a whitespace-only string self-compares to 3. -/
theorem score_name_self_max_witness : score_name " ".data " ".data = 3 :=
  score_name_self_max " ".data (by decide)

/-- Claim C4, counterexample: a row whose player cell is `None` is blank
under the shared blank predicate, yet `iter_rows_from` keeps it, because
the scan only drops the empty string and the lowercase string `nan`. -/
theorem iter_rows_blank_predicate_cex :
    iter_rows_from [rowNonePlayer] 1 = [(0, "None".data, "x".data)]
    ∧ is_blank "None".data = true := by
  exact ⟨by decide, by decide⟩

/-- Claim C2, counterexample: a fast-tier candidate list whose only
candidate has no affiliation label at all (affiliation score 0) but a
non-blank raw value: the claim predicts the fallback tier fires, yet the
trigger is false and the tier tag stays `http`, because the trigger
tests the raw value text, not the affiliation label. -/
theorem fallback_affiliation_cex :
    (score_squad "x".data (Cand.mk "u".data "messi".data [] "€5m".data).clubs).1 = 0
    ∧ fallback_trigger ((some [Cand.mk "u".data "messi".data [] "€5m".data]).bind
        (find_best_http_sel "messi".data "x".data)) = false
    ∧ (final_match "messi".data "x".data
        (some [Cand.mk "u".data "messi".data [] "€5m".data]) none).2 = "http".data := by
  refine ⟨by decide, by decide, by decide⟩

/-- Claim C2, amended: the fallback tier is invoked exactly when the
fast tier yields no match or the matched raw value text strips to
empty; the tier tag is `browser` exactly when the fallback was invoked
and itself produced a match. -/
theorem fallback_trigger_iff (pn sq : List Char)
    (httpFetch browserFetch : Option (List Cand)) :
    (fallback_trigger (httpFetch.bind (find_best_http_sel pn sq)) = true ↔
      httpFetch.bind (find_best_http_sel pn sq) = none
      ∨ ∃ t, httpFetch.bind (find_best_http_sel pn sq) = some t ∧ pyStrip t.2.2 = [])
    ∧ ((final_match pn sq httpFetch browserFetch).2 = "browser".data ↔
        fallback_trigger (httpFetch.bind (find_best_http_sel pn sq)) = true
        ∧ browserFetch.bind (find_best_browser_sel pn sq) ≠ none) := by
  constructor
  · cases h : httpFetch.bind (find_best_http_sel pn sq) with
    | none => simp [fallback_trigger]
    | some t =>
      simp only [fallback_trigger, decide_eq_true_eq, reduceCtorEq, false_or]
      constructor
      · intro hs
        exact ⟨t, rfl, hs⟩
      · rintro ⟨u, hu, hs⟩
        cases hu
        exact hs
  · unfold final_match
    cases hb : browserFetch.bind (find_best_browser_sel pn sq) with
    | none =>
      cases ht : fallback_trigger (httpFetch.bind (find_best_http_sel pn sq)) <;>
        simp [ht, hb]
    | some bm =>
      cases ht : fallback_trigger (httpFetch.bind (find_best_http_sel pn sq)) <;>
        simp [ht, hb]


set_option maxRecDepth 8000 in
/-- Claim C6 check on concrete suffix round trips. -/
theorem parse_suffix_round_trips :
    parse_market_value_to_int (.pystr "12.5m".data) = some 12500000
    ∧ parse_market_value_to_int (.pystr "750k".data) = some 750000
    ∧ parse_market_value_to_int (.pystr "€200.00m".data) = some 200000000
    ∧ parse_market_value_to_int (.pystr "12,500,000".data) = some 12500000
    ∧ parse_market_value_to_int (.pystr "".data) = none
    ∧ parse_market_value_to_int (.pystr "null".data) = none := by
  refine ⟨?_, ?_, ?_, ?_, ?_, ?_⟩ <;> decide


/-- Claim C5: the status of the row `process_player` returns is
`not_found` exactly when no candidate survived selection in either
tier, `value_not_found` exactly when a candidate survived with empty raw
value text, and `ok` exactly when the raw value text is non-empty, in
which case the row carries that raw text and its parsed integer value. -/
theorem process_player_status_classification (now pn sq : List Char)
    (httpFetch browserFetch : Option (List Cand)) :
    ((process_player now pn sq httpFetch browserFetch).1.status = "not_found".data
      ↔ (final_match pn sq httpFetch browserFetch).1 = none)
    ∧ ((process_player now pn sq httpFetch browserFetch).1.status = "value_not_found".data
      ↔ ∃ t, (final_match pn sq httpFetch browserFetch).1 = some t ∧ t.2.2 = [])
    ∧ ((process_player now pn sq httpFetch browserFetch).1.status = "ok".data
      ↔ ∃ t, (final_match pn sq httpFetch browserFetch).1 = some t ∧ t.2.2 ≠ [])
    ∧ ∀ t, (final_match pn sq httpFetch browserFetch).1 = some t →
        (process_player now pn sq httpFetch browserFetch).1.mvRaw = t.2.2
        ∧ (t.2.2 ≠ [] →
            (process_player now pn sq httpFetch browserFetch).1.mvInt
              = parse_market_value_to_int (.pystr t.2.2)) := by
  rcases h : final_match pn sq httpFetch browserFetch with ⟨m, src⟩
  simp only [process_player, h]
  cases m with
  | none =>
    rw [show (build_result now pn sq none).status = "not_found".data from rfl]
    refine ⟨by simp, ?_, ?_, ?_⟩
    · exact iff_of_false (by decide) (by rintro ⟨t, ht, _⟩; cases ht)
    · exact iff_of_false (by decide) (by rintro ⟨t, ht, _⟩; cases ht)
    · intro t ht; cases ht
  | some t =>
    have hst : (build_result now pn sq (some t)).status
        = (if t.2.2 = [] then "value_not_found".data else "ok".data) := rfl
    have hmv : (build_result now pn sq (some t)).mvInt
        = (if t.2.2 = [] then none else parse_market_value_to_int (.pystr t.2.2)) := rfl
    have hraw : (build_result now pn sq (some t)).mvRaw = t.2.2 := rfl
    by_cases he : t.2.2 = []
    · rw [hst, if_pos he]
      refine ⟨?_, ?_, ?_, ?_⟩
      · exact iff_of_false (by decide) (by rintro ht; cases ht)
      · exact iff_of_true rfl ⟨t, rfl, he⟩
      · refine iff_of_false (by decide) ?_
        rintro ⟨u, hu, hne⟩
        cases hu
        exact hne he
      · intro u hu
        cases hu
        exact ⟨hraw, fun hne => absurd he hne⟩
    · rw [hst, if_neg he]
      refine ⟨?_, ?_, ?_, ?_⟩
      · exact iff_of_false (by decide) (by rintro ht; cases ht)
      · refine iff_of_false (by decide) ?_
        rintro ⟨u, hu, hu2⟩
        cases hu
        exact he hu2
      · exact iff_of_true rfl ⟨t, rfl, he⟩
      · intro u hu
        cases hu
        refine ⟨hraw, fun _ => ?_⟩
        rw [hmv, if_neg he]

/-- The comparison never prefers a key to itself. -/
theorem keyGT_irrefl (a : Nat × Nat × Nat) : keyGT a a = false := by
  simp only [keyGT, decide_eq_false_iff_not]
  omega

/-- Strict key preference is asymmetric. -/
theorem keyGT_asymm {a b : Nat × Nat × Nat}
    (h : keyGT a b = true) : keyGT b a = false := by
  simp only [keyGT, decide_eq_true_eq] at h
  simp only [keyGT, decide_eq_false_iff_not]
  omega

/-- Strict key preference is transitive. -/
theorem keyGT_trans {a b c : Nat × Nat × Nat}
    (h1 : keyGT a b = true) (h2 : keyGT b c = true) : keyGT a c = true := by
  simp only [keyGT, decide_eq_true_eq] at *
  omega

/-- Non-preference (at most as good a key) is transitive. -/
theorem keyGT_nGT_trans {a b c : Nat × Nat × Nat}
    (h1 : keyGT a b = false) (h2 : keyGT b c = false) : keyGT a c = false := by
  simp only [keyGT, decide_eq_false_iff_not] at *
  omega

/-- How the selection loop folds an already-held best candidate with the
best of the remaining list: the held candidate loses only to a strictly
greater key. -/
def mergeBest (pn sq : List Char) (best m : Option Cand) : Option Cand :=
  match best, m with
  | none, m => m
  | some b, none => some b
  | some b, some m =>
    if keyGT (candKey pn sq m) (candKey pn sq b) then some m else some b

/-- Dropping a zero-name-score candidate leaves the spec-side selection
unchanged. -/
theorem selectSpec_cons_neg (pn sq : List Char) (c : Cand) (rest : List Cand)
    (hs : score_name pn c.name = 0) :
    selectSpec pn sq (c :: rest) = selectSpec pn sq rest := by
  simp [selectSpec, List.filter_cons, hs]

/-- A surviving head candidate enters the spec-side selection as the
tie-breaking later element of the maximizer recursion. -/
theorem selectSpec_cons_pos (pn sq : List Char) (c : Cand) (rest : List Cand)
    (hs : score_name pn c.name ≠ 0) :
    selectSpec pn sq (c :: rest)
      = match selectSpec pn sq rest with
        | none => some c
        | some m => if keyGT (candKey pn sq m) (candKey pn sq c) then some m else some c := by
  have hfilter : (c :: rest).filter (fun x => score_name pn x.name ≠ 0)
      = c :: rest.filter (fun x => score_name pn x.name ≠ 0) := by
    simp [List.filter_cons, hs]
  simp only [selectSpec, hfilter, argmaxFirst]

/-- The selection loop computes exactly the spec-side first maximizer,
merged against the incoming best candidate. -/
theorem find_best_loop_eq (pn sq : List Char) :
    ∀ (cands : List Cand) (best : Option Cand),
      find_best_loop pn sq best cands = mergeBest pn sq best (selectSpec pn sq cands) := by
  intro cands
  induction cands with
  | nil =>
    intro best
    cases best <;> rfl
  | cons c rest ih =>
    intro best
    by_cases hs : score_name pn c.name = 0
    · have hL : find_best_loop pn sq best (c :: rest) = find_best_loop pn sq best rest := by
        simp [find_best_loop, hs]
      rw [hL, ih best, selectSpec_cons_neg pn sq c rest hs]
    · rw [selectSpec_cons_pos pn sq c rest hs]
      cases best with
      | none =>
        have hL : find_best_loop pn sq none (c :: rest) = find_best_loop pn sq (some c) rest := by
          simp [find_best_loop, hs]
        rw [hL, ih (some c)]
        cases hm : selectSpec pn sq rest with
        | none => rfl
        | some m => rfl
      | some b =>
        by_cases hcb : keyGT (candKey pn sq c) (candKey pn sq b) = true
        · have hL : find_best_loop pn sq (some b) (c :: rest)
              = find_best_loop pn sq (some c) rest := by
            simp [find_best_loop, hs, hcb]
          rw [hL, ih (some c)]
          cases hm : selectSpec pn sq rest with
          | none => simp [mergeBest, hcb]
          | some m =>
            by_cases hmc : keyGT (candKey pn sq m) (candKey pn sq c) = true
            · have hmb := keyGT_trans hmc hcb
              simp [mergeBest, hmc, hmb]
            · have hmc2 : keyGT (candKey pn sq m) (candKey pn sq c) = false :=
                Bool.eq_false_iff.mpr hmc
              simp [mergeBest, hmc2, hcb]
        · have hcb2 : keyGT (candKey pn sq c) (candKey pn sq b) = false :=
            Bool.eq_false_iff.mpr hcb
          have hL : find_best_loop pn sq (some b) (c :: rest)
              = find_best_loop pn sq (some b) rest := by
            simp [find_best_loop, hs, hcb2]
          rw [hL, ih (some b)]
          cases hm : selectSpec pn sq rest with
          | none => simp [mergeBest, hcb2]
          | some m =>
            by_cases hmc : keyGT (candKey pn sq m) (candKey pn sq c) = true
            · simp [mergeBest, hmc]
            · have hmc2 : keyGT (candKey pn sq m) (candKey pn sq c) = false :=
                Bool.eq_false_iff.mpr hmc
              have hmb := keyGT_nGT_trans hmc2 hcb2
              simp [mergeBest, hmc2, hmb, hcb2]

/-- The spec-side maximizer is empty exactly on the empty list. -/
theorem argmaxFirst_eq_none (keyf : Cand → Nat × Nat × Nat) :
    ∀ l, argmaxFirst keyf l = none ↔ l = [] := by
  intro l
  cases l with
  | nil => simp [argmaxFirst]
  | cons c rest =>
    simp only [argmaxFirst]
    cases argmaxFirst keyf rest with
    | none => simp
    | some m =>
      refine iff_of_false ?_ (by simp)
      intro hfalse
      have h3 : (if keyGT (keyf m) (keyf c) then some m else some c) = none := hfalse
      by_cases hk : keyGT (keyf m) (keyf c) = true
      · rw [if_pos hk] at h3; cases h3
      · rw [if_neg hk] at h3; cases h3

/-- The spec-side maximizer picks a member of the list. -/
theorem argmaxFirst_mem (keyf : Cand → Nat × Nat × Nat) :
    ∀ l c, argmaxFirst keyf l = some c → c ∈ l := by
  intro l
  induction l with
  | nil => intro c h; cases h
  | cons a rest ih =>
    intro c h
    have h2 : (match argmaxFirst keyf rest with
        | none => some a
        | some m => if keyGT (keyf m) (keyf a) then some m else some a) = some c := h
    cases hm : argmaxFirst keyf rest with
    | none =>
      rw [hm] at h2
      have h3 : some a = some c := h2
      cases h3
      exact List.mem_cons_self a rest
    | some m =>
      rw [hm] at h2
      have h3 : (if keyGT (keyf m) (keyf a) then some m else some a) = some c := h2
      by_cases hk : keyGT (keyf m) (keyf a) = true
      · rw [if_pos hk] at h3
        cases h3
        exact List.mem_cons_of_mem a (ih c hm)
      · rw [if_neg hk] at h3
        cases h3
        exact List.mem_cons_self a rest

/-- No list member strictly beats the spec-side maximizer. -/
theorem argmaxFirst_max (keyf : Cand → Nat × Nat × Nat) :
    ∀ l c, argmaxFirst keyf l = some c →
      ∀ d ∈ l, keyGT (keyf d) (keyf c) = false := by
  intro l
  induction l with
  | nil => intro c h; cases h
  | cons a rest ih =>
    intro c h d hd
    have h2 : (match argmaxFirst keyf rest with
        | none => some a
        | some m => if keyGT (keyf m) (keyf a) then some m else some a) = some c := h
    cases hm : argmaxFirst keyf rest with
    | none =>
      rw [hm] at h2
      have h3 : some a = some c := h2
      cases h3
      rcases List.mem_cons.mp hd with hda | hdr
      · rw [hda]; exact keyGT_irrefl _
      · rw [(argmaxFirst_eq_none keyf rest).mp hm] at hdr
        cases hdr
    | some m =>
      rw [hm] at h2
      have h3 : (if keyGT (keyf m) (keyf a) then some m else some a) = some c := h2
      by_cases hk : keyGT (keyf m) (keyf a) = true
      · rw [if_pos hk] at h3
        cases h3
        rcases List.mem_cons.mp hd with hda | hdr
        · rw [hda]; exact keyGT_asymm hk
        · exact ih c hm d hdr
      · rw [if_neg hk] at h3
        cases h3
        rcases List.mem_cons.mp hd with hda | hdr
        · rw [hda]; exact keyGT_irrefl _
        · exact keyGT_nGT_trans (ih m hm d hdr) (Bool.eq_false_iff.mpr hk)


/-- Claim C7: in both tiers the selection is exactly the spec rule: the
returned candidate is the first-encountered maximizer of
`(composite, name_score, affiliation_score)` among candidates with
positive name score; the selection is empty exactly when no candidate
survives the name-score filter, and no surviving candidate strictly
beats the selected one. -/
theorem selection_matches_spec_rule (pn sq : List Char) (cands : List Cand) :
    find_best_http_sel pn sq cands = (selectSpec pn sq cands).map (candResult sq)
    ∧ find_best_browser_sel pn sq cands
        = (selectSpec pn sq (cands.filter (fun c => !c.href.isEmpty))).map (candResult sq)
    ∧ (selectSpec pn sq cands = none
        ↔ cands.filter (fun c => score_name pn c.name ≠ 0) = [])
    ∧ ∀ c, selectSpec pn sq cands = some c →
        c ∈ cands ∧ score_name pn c.name ≠ 0
        ∧ ∀ d ∈ cands, score_name pn d.name ≠ 0 →
            keyGT (candKey pn sq d) (candKey pn sq c) = false := by
  refine ⟨?_, ?_, ?_, ?_⟩
  · unfold find_best_http_sel
    rw [find_best_loop_eq]
    rfl
  · unfold find_best_browser_sel
    rw [find_best_loop_eq]
    rfl
  · exact argmaxFirst_eq_none (candKey pn sq) _
  · intro c hc
    have hmem : c ∈ cands.filter (fun x => score_name pn x.name ≠ 0) :=
      argmaxFirst_mem (candKey pn sq) _ c hc
    obtain ⟨hmc, hsc⟩ := List.mem_filter.mp hmem
    refine ⟨hmc, of_decide_eq_true hsc, ?_⟩
    intro d hd hdne
    have hdf : d ∈ cands.filter (fun x => score_name pn x.name ≠ 0) :=
      List.mem_filter.mpr ⟨hd, decide_eq_true hdne⟩
    exact argmaxFirst_max (candKey pn sq) _ c hc d hdf

/-- Claim C8: the worker loop pushes exactly one result per job, in
order; a job whose client call raises with kind `k` yields a result
whose status is the string `error:` followed by `k` and whose source tag
is `error`, and no exception escapes the loop (the loop is a total
function of the task list). -/
theorem worker_emits_one_result_per_job (now : List Char)
    (resolve : Job → Except (List Char) (ResRow × List Char)) (tasks : List Job) :
    (worker_loop now resolve tasks).length = tasks.length
    ∧ List.Forall₂ (fun (j : Job) (r : Nat × ResRow × List Char) =>
        r.1 = j.idx
        ∧ (∀ rs, resolve j = .ok rs → r.2 = rs)
        ∧ (∀ k, resolve j = .error k →
            r.2.1.status = "error:".data ++ k ∧ r.2.2 = "error".data))
      tasks (worker_loop now resolve tasks) := by
  constructor
  · induction tasks with
    | nil => rfl
    | cons j rest ih => simp only [worker_loop, List.length_cons, ih]
  · induction tasks with
    | nil => exact List.Forall₂.nil
    | cons j rest ih =>
      simp only [worker_loop]
      refine List.Forall₂.cons ?_ ih
      cases hres : resolve j with
      | ok rs =>
        refine ⟨rfl, ?_, ?_⟩
        · intro rs2 h2
          cases h2
          rfl
        · intro k h2
          cases h2
      | error k =>
        refine ⟨rfl, ?_, ?_⟩
        · intro rs2 h2
          cases h2
        · intro k2 h2
          cases h2
          exact ⟨rfl, rfl⟩



/-- Once the squad loop holds a best score of 2 and the query normalizes
to empty, no later label can change the outcome: exact match would need
an empty label (skipped) and the substring branch cannot upgrade. -/
theorem score_squad_loop_stable (best : Nat × List Char) (h2 : best.1 = 2) :
    ∀ rest, score_squad_loop [] best rest = best := by
  intro rest
  induction rest with
  | nil => rfl
  | cons club r ih =>
    simp only [score_squad_loop]
    by_cases hc : normalize_club_name club = []
    · rw [if_pos hc]
      exact ih
    · rw [if_neg hc, if_neg (fun h => hc h.symm)]
      have hsub : isSubstr [] (normalize_club_name club) = true := by
        cases hnc : normalize_club_name club with
        | nil => exact absurd hnc hc
        | cons a as => rfl
      have hcond : (isSubstr [] (normalize_club_name club)
          || isSubstr (normalize_club_name club) []) = true := by
        rw [hsub]
        rfl
      rw [if_pos hcond, if_neg (by omega : ¬ best.1 < 2)]
      exact ih

/-- Running the squad loop with an empty normalized query over labels
that normalize to empty, then a label that does not: the loop reaches
that label, upgrades the best to score 2 through the empty-substring
branch, and keeps it. -/
theorem score_squad_loop_reaches (club : List Char) (rest : List (List Char))
    (hclub : normalize_club_name club ≠ []) :
    ∀ (pre : List (List Char)) (best : Nat × List Char),
      (∀ x ∈ pre, normalize_club_name x = []) → best.1 < 2 →
      score_squad_loop [] best (pre ++ club :: rest) = (2, club) := by
  intro pre
  induction pre with
  | nil =>
    intro best hpre hb
    simp only [List.nil_append, score_squad_loop]
    rw [if_neg hclub, if_neg (fun h => hclub h.symm)]
    have hsub : isSubstr [] (normalize_club_name club) = true := by
      cases hnc : normalize_club_name club with
      | nil => exact absurd hnc hclub
      | cons a as => rfl
    have hcond : (isSubstr [] (normalize_club_name club)
        || isSubstr (normalize_club_name club) []) = true := by
      rw [hsub]
      rfl
    rw [if_pos hcond, if_pos hb]
    exact score_squad_loop_stable (2, club) rfl rest
  | cons p pre2 ih =>
    intro best hpre hb
    simp only [List.cons_append, score_squad_loop]
    rw [if_pos (hpre p (List.mem_cons_self p pre2))]
    exact ih best (fun x hx => hpre x (List.mem_cons_of_mem p hx)) hb

/-- Claim C10: a non-empty query that normalizes to the empty string,
scored against a label list whose first label with non-empty
normalization is `club`, yields score 2 with that label (empty-string
substring containment), not the `(0, first label)` result reserved for
the literally empty query. -/
theorem score_squad_empty_normalized_query (query club : List Char)
    (pre rest : List (List Char))
    (hq : query ≠ []) (hqn : normalize_club_name query = [])
    (hpre : ∀ x ∈ pre, normalize_club_name x = [])
    (hclub : normalize_club_name club ≠ []) :
    score_squad query (pre ++ club :: rest) = (2, club) := by
  unfold score_squad
  rw [if_neg hq, hqn]
  exact score_squad_loop_reaches club rest hclub pre
    (0, (pre ++ club :: rest).headD []) hpre (by norm_num)

/-- Claim C10, witness: a whitespace-only query against one ordinary
label scores 2 with that label. -/
theorem score_squad_empty_normalized_query_witness :
    score_squad " ".data ["FC".data] = (2, "FC".data) :=
  score_squad_empty_normalized_query " ".data "FC".data [] [] (by decide) (by decide)
    (by intro x hx; cases hx) (by decide)



/-- Membership in the row scan, with the running index explicit: the
scan output holds exactly the offset-indexed rows at or after the start
row whose player cell is non-empty and does not lowercase to `nan`. -/
theorem iter_rows_aux_mem (s : Nat) :
    ∀ (df : List Row) (i0 : Nat) (x : Nat × List Char × List Char),
      x ∈ iter_rows_aux s i0 df ↔
        ∃ j row, df.get? j = some row ∧ x.1 = i0 + j
          ∧ x.2.1 = row Col.player ∧ x.2.2 = row Col.squad
          ∧ s ≤ x.1 + 1 ∧ row Col.player ≠ []
          ∧ pyLowerS (row Col.player) ≠ "nan".data := by
  intro df
  induction df with
  | nil =>
    intro i0 x
    simp [iter_rows_aux]
  | cons row0 rest ih =>
    intro i0 x
    by_cases h1 : i0 + 1 < s
    · have haux : iter_rows_aux s i0 (row0 :: rest) = iter_rows_aux s (i0 + 1) rest := by
        simp [iter_rows_aux, h1]
      rw [haux, ih (i0 + 1)]
      constructor
      · rintro ⟨j, row, hget, hx1, hx2, hx3, hs, hp1, hp2⟩
        exact ⟨j + 1, row, by simpa using hget, by omega, hx2, hx3, hs, hp1, hp2⟩
      · rintro ⟨j, row, hget, hx1, hx2, hx3, hs, hp1, hp2⟩
        cases j with
        | zero => omega
        | succ j2 =>
          exact ⟨j2, row, by simpa using hget, by omega, hx2, hx3, hs, hp1, hp2⟩
    · by_cases h2 : row0 Col.player = [] ∨ pyLowerS (row0 Col.player) = "nan".data
      · have haux : iter_rows_aux s i0 (row0 :: rest) = iter_rows_aux s (i0 + 1) rest := by
          simp [iter_rows_aux, h1, h2]
        rw [haux, ih (i0 + 1)]
        constructor
        · rintro ⟨j, row, hget, hx1, hx2, hx3, hs, hp1, hp2⟩
          exact ⟨j + 1, row, by simpa using hget, by omega, hx2, hx3, hs, hp1, hp2⟩
        · rintro ⟨j, row, hget, hx1, hx2, hx3, hs, hp1, hp2⟩
          cases j with
          | zero =>
            have hrow : row = row0 := by
              have := hget
              simp only [List.get?] at this
              exact (Option.some.inj this).symm
            rw [hrow] at hp1 hp2
            rcases h2 with h2 | h2
            · exact absurd h2 hp1
            · exact absurd h2 hp2
          | succ j2 =>
            exact ⟨j2, row, by simpa using hget, by omega, hx2, hx3, hs, hp1, hp2⟩
      · have haux : iter_rows_aux s i0 (row0 :: rest)
            = (i0, row0 Col.player, row0 Col.squad) :: iter_rows_aux s (i0 + 1) rest := by
          simp [iter_rows_aux, h1, h2]
        push_neg at h2
        rw [haux]
        simp only [List.mem_cons, ih (i0 + 1)]
        constructor
        · rintro (hx | ⟨j, row, hget, hx1, hx2, hx3, hs, hp1, hp2⟩)
          · refine ⟨0, row0, rfl, ?_, ?_, ?_, ?_, h2.1, h2.2⟩
            · rw [hx]
              show i0 = i0 + 0
              omega
            · rw [hx]
            · rw [hx]
            · rw [hx]
              show s ≤ i0 + 1
              omega
          · exact ⟨j + 1, row, by simpa using hget, by omega, hx2, hx3, hs, hp1, hp2⟩
        · rintro ⟨j, row, hget, hx1, hx2, hx3, hs, hp1, hp2⟩
          cases j with
          | zero =>
            left
            have hrow : row = row0 := by
              have := hget
              simp only [List.get?] at this
              exact (Option.some.inj this).symm
            obtain ⟨x1, x2, x3⟩ := x
            simp only at hx1 hx2 hx3
            rw [hx1, hx2, hx3, hrow]
            rfl
          | succ j2 =>
            right
            exact ⟨j2, row, by simpa using hget, by omega, hx2, hx3, hs, hp1, hp2⟩

/-- Every index the row scan emits is at least the running index. -/
theorem iter_rows_aux_lb (s : Nat) :
    ∀ (df : List Row) (i0 : Nat) (x : Nat × List Char × List Char),
      x ∈ iter_rows_aux s i0 df → i0 ≤ x.1 := by
  intro df
  induction df with
  | nil =>
    intro i0 x hx
    simp [iter_rows_aux] at hx
  | cons row0 rest ih =>
    intro i0 x hx
    by_cases h1 : i0 + 1 < s
    · rw [show iter_rows_aux s i0 (row0 :: rest) = iter_rows_aux s (i0 + 1) rest from by
        simp [iter_rows_aux, h1]] at hx
      exact Nat.le_of_succ_le (ih (i0 + 1) x hx)
    · by_cases h2 : row0 Col.player = [] ∨ pyLowerS (row0 Col.player) = "nan".data
      · rw [show iter_rows_aux s i0 (row0 :: rest) = iter_rows_aux s (i0 + 1) rest from by
          simp [iter_rows_aux, h1, h2]] at hx
        exact Nat.le_of_succ_le (ih (i0 + 1) x hx)
      · rw [show iter_rows_aux s i0 (row0 :: rest)
            = (i0, row0 Col.player, row0 Col.squad) :: iter_rows_aux s (i0 + 1) rest from by
          simp [iter_rows_aux, h1, h2]] at hx
        rcases List.mem_cons.mp hx with h | h
        · rw [h]
        · exact Nat.le_of_succ_le (ih (i0 + 1) x h)

/-- The row scan emits indices in strictly increasing order. -/
theorem iter_rows_aux_pairwise (s : Nat) :
    ∀ (df : List Row) (i0 : Nat),
      (iter_rows_aux s i0 df).Pairwise (fun a b => a.1 < b.1) := by
  intro df
  induction df with
  | nil => intro i0; simp [iter_rows_aux]
  | cons row0 rest ih =>
    intro i0
    by_cases h1 : i0 + 1 < s
    · rw [show iter_rows_aux s i0 (row0 :: rest) = iter_rows_aux s (i0 + 1) rest from by
        simp [iter_rows_aux, h1]]
      exact ih (i0 + 1)
    · by_cases h2 : row0 Col.player = [] ∨ pyLowerS (row0 Col.player) = "nan".data
      · rw [show iter_rows_aux s i0 (row0 :: rest) = iter_rows_aux s (i0 + 1) rest from by
          simp [iter_rows_aux, h1, h2]]
        exact ih (i0 + 1)
      · rw [show iter_rows_aux s i0 (row0 :: rest)
            = (i0, row0 Col.player, row0 Col.squad) :: iter_rows_aux s (i0 + 1) rest from by
          simp [iter_rows_aux, h1, h2]]
        refine List.Pairwise.cons ?_ (ih (i0 + 1))
        intro y hy
        exact Nat.lt_of_succ_le (iter_rows_aux_lb s rest (i0 + 1) y hy)

/-- Claim C4, amended: `iter_rows_from` returns exactly the rows at
1-based positions at or after the start row whose player cell is
non-empty and does not lowercase to `nan`, as `(index, player, squad)`
triples in strictly increasing row order; the shared blank predicate is
not consulted, so names like `None`, `null` or whitespace are kept. -/
theorem iter_rows_characterization (df : List Row) (start : Nat) :
    (∀ x : Nat × List Char × List Char, x ∈ iter_rows_from df start ↔
       ∃ row, df.get? x.1 = some row ∧ x.2.1 = row Col.player ∧ x.2.2 = row Col.squad
         ∧ start ≤ x.1 + 1 ∧ row Col.player ≠ []
         ∧ pyLowerS (row Col.player) ≠ "nan".data)
    ∧ (iter_rows_from df start).Pairwise (fun a b => a.1 < b.1) := by
  constructor
  · intro x
    rw [iter_rows_from, iter_rows_aux_mem start df 0 x]
    constructor
    · rintro ⟨j, row, hget, hx1, hx2, hx3, hs, hp1, hp2⟩
      have hj : j = x.1 := by omega
      rw [hj] at hget
      exact ⟨row, hget, hx2, hx3, hs, hp1, hp2⟩
    · rintro ⟨row, hget, hx2, hx3, hs, hp1, hp2⟩
      exact ⟨x.1, row, hget, by omega, hx2, hx3, hs, hp1, hp2⟩
  · exact iter_rows_aux_pairwise start df 0



/-- A list none of whose elements satisfies the predicate is untouched
by `dropWhile`. -/
theorem dropWhile_eq_self_of_forall (p : Char → Bool) (t : List Char)
    (h : ∀ c ∈ t, p c = false) : t.dropWhile p = t := by
  cases t with
  | nil => rfl
  | cons a rest => simp [List.dropWhile_cons, h a (List.mem_cons_self a rest)]

/-- Stripping a string with no whitespace characters is the identity. -/
theorem pyStrip_eq_self (t : List Char) (h : ∀ c ∈ t, isPySpace c = false) :
    pyStrip t = t := by
  unfold pyStrip
  rw [dropWhile_eq_self_of_forall isPySpace t h,
    dropWhile_eq_self_of_forall isPySpace t.reverse
      (fun c hc => h c (List.mem_reverse.mp hc))]
  exact List.reverse_reverse t

/-- `takeWhile` passes over a prefix all of whose elements satisfy the
predicate. -/
theorem takeWhile_append_all (p : Char → Bool) :
    ∀ (a r : List Char), (∀ c ∈ a, p c = true) →
      (a ++ r).takeWhile p = a ++ r.takeWhile p := by
  intro a
  induction a with
  | nil => intro r h; rfl
  | cons x a2 ih =>
    intro r h
    simp only [List.cons_append, List.takeWhile_cons, h x (List.mem_cons_self x a2)]
    rw [ih r (fun c hc => h c (List.mem_cons_of_mem x hc))]
    simp

/-- `dropWhile` consumes a prefix all of whose elements satisfy the
predicate. -/
theorem dropWhile_append_all (p : Char → Bool) :
    ∀ (a r : List Char), (∀ c ∈ a, p c = true) →
      (a ++ r).dropWhile p = r.dropWhile p := by
  intro a
  induction a with
  | nil => intro r h; rfl
  | cons x a2 ih =>
    intro r h
    simp only [List.cons_append, List.dropWhile_cons, h x (List.mem_cons_self x a2)]
    rw [ih r (fun c hc => h c (List.mem_cons_of_mem x hc))]
    simp

/-- `takeWhile` keeps a list all of whose elements satisfy the
predicate. -/
theorem takeWhile_all (p : Char → Bool) (t : List Char)
    (h : ∀ c ∈ t, p c = true) : t.takeWhile p = t := by
  have h2 := takeWhile_append_all p t [] h
  simpa using h2

/-- `dropWhile` empties a list all of whose elements satisfy the
predicate. -/
theorem dropWhile_all (p : Char → Bool) (t : List Char)
    (h : ∀ c ∈ t, p c = true) : t.dropWhile p = [] := by
  have h2 := dropWhile_append_all p t [] h
  simpa using h2

/-- Replacing a pattern whose first character never occurs in the
string is the identity, at any fuel. -/
theorem pyReplaceGo_id (hd : Char) (pt rep : List Char) :
    ∀ (fuel : Nat) (t : List Char), hd ∉ t →
      pyReplaceGo (hd :: pt) rep fuel t = t := by
  intro fuel
  induction fuel with
  | zero =>
    intro t h
    cases t <;> rfl
  | succ f ih =>
    intro t h
    cases t with
    | nil => rfl
    | cons c rest =>
      have hne2 : hd ≠ c := fun he => h (he ▸ List.mem_cons_self c rest)
      have hpre : (hd :: pt).isPrefixOf (c :: rest) = false := by
        show (hd == c && pt.isPrefixOf rest) = false
        rw [beq_eq_false_iff_ne.mpr hne2]
        rfl
      simp only [pyReplaceGo]
      rw [if_neg (by simp [hpre])]
      rw [ih rest (fun hmem => h (List.mem_cons_of_mem c hmem))]

/-- Python `replace` with a pattern whose first character is absent is
the identity. -/
theorem pyReplace_id (hd : Char) (pt rep t : List Char) (h : hd ∉ t) :
    pyReplace (hd :: pt) rep t = t :=
  pyReplaceGo_id hd pt rep t.length t h

/-- A string of digits and commas contains no whitespace. -/
theorem chars_not_space (t : List Char)
    (hchars : ∀ c ∈ t, isDigitC c = true ∨ c = ',') :
    ∀ c ∈ t, isPySpace c = false := by
  intro c hc
  rcases hchars c hc with h | h
  · cases hsp : isPySpace c with
    | false => rfl
    | true =>
      exfalso
      simp only [isPySpace, Bool.or_eq_true, beq_iff_eq] at hsp
      rcases hsp with ((((h2 | h2) | h2) | h2) | h2) | h2 <;> subst h2 <;>
        exact absurd h (by decide)
  · subst h
    decide

/-- A character absent from all of a digits-and-commas string: any
character that is neither a digit nor a comma. -/
theorem not_mem_of_chars (t : List Char)
    (hchars : ∀ c ∈ t, isDigitC c = true ∨ c = ',') (x : Char)
    (hx1 : isDigitC x = false) (hx2 : x ≠ ',') : x ∉ t := by
  intro hmem
  rcases hchars x hmem with h | h
  · rw [h] at hx1
    cases hx1
  · exact hx2 h

/-- The currency-stripping chain is the identity on strings of digits
and commas: no currency glyph, mis-encoded glyph, non-breaking space or
whitespace occurs in them. -/
theorem stripCurrency_id (t : List Char)
    (hchars : ∀ c ∈ t, isDigitC c = true ∨ c = ',') :
    stripCurrency t = t := by
  unfold stripCurrency
  rw [pyReplace_id '€' [] [] t (not_mem_of_chars t hchars '€' (by decide) (by decide))]
  rw [pyReplace_id '$' [] [] t (not_mem_of_chars t hchars '$' (by decide) (by decide))]
  rw [pyReplace_id '£' [] [] t (not_mem_of_chars t hchars '£' (by decide) (by decide))]
  rw [show ("â‚¬".data : List Char) = 'â' :: "‚¬".data from rfl]
  rw [pyReplace_id 'â' "‚¬".data [] t (not_mem_of_chars t hchars 'â' (by decide) (by decide))]
  rw [show ("Â£".data : List Char) = 'Â' :: "£".data from rfl]
  rw [pyReplace_id 'Â' "£".data [] t (not_mem_of_chars t hchars 'Â' (by decide) (by decide))]
  rw [pyReplace_id '\u00A0' [] [' '] t
    (not_mem_of_chars t hchars '\u00A0' (by decide) (by decide))]
  exact pyStrip_eq_self t (chars_not_space t hchars)

/-- The suffix-pattern match on `<digits>,<digits>`: the comma is read
as the decimal separator, the whole fraction is consumed, and there is
no suffix letter. -/
theorem matchMoney_sep (a b : List Char) (ha : a ≠ []) (hb : b ≠ [])
    (hda : ∀ c ∈ a, isDigitC c = true) (hdb : ∀ c ∈ b, isDigitC c = true) :
    matchMoney (a ++ ',' :: b) = some (fracVal a (some b), none) := by
  have hta : (a ++ ',' :: b).takeWhile isDigitC = a := by
    rw [takeWhile_append_all isDigitC a (',' :: b) hda]
    rw [show (',' :: b).takeWhile isDigitC = [] from by
      simp [List.takeWhile_cons, show isDigitC ',' = false from by decide]]
    exact List.append_nil a
  have hdrop : (a ++ ',' :: b).dropWhile isDigitC = ',' :: b := by
    rw [dropWhile_append_all isDigitC a (',' :: b) hda]
    simp [List.dropWhile_cons, show isDigitC ',' = false from by decide]
  have hae : a.isEmpty = false := by
    cases a with
    | nil => exact absurd rfl ha
    | cons x xs => rfl
  have htb : b.takeWhile isDigitC = b := takeWhile_all isDigitC b hdb
  have hdb2 : b.dropWhile isDigitC = [] := dropWhile_all isDigitC b hdb
  have hbe : b.isEmpty = false := by
    cases b with
    | nil => exact absurd rfl hb
    | cons x xs => rfl
  simp only [matchMoney, hta, hdrop, hae, htb, hdb2, hbe, Bool.false_eq_true,
    if_false]
  rfl



set_option maxRecDepth 8000 in
/-- Claim C9, counterexample: at `9007199254740993,0` (the decimal
value 2^53 + 1) the parser does not return the rounded decimal value:
CPython first converts the numeral to the nearest binary64 double,
which collapses 2^53 + 1 to 2^53, so the program returns
9007199254740992 while the exact decimal rounds to 9007199254740993. -/
theorem parse_comma_double_rounding_cex :
    parse_market_value_to_int (.pystr "9007199254740993,0".data)
      = some 9007199254740992
    ∧ pyround ⟨9007199254740993, 1⟩ = 9007199254740993
    ∧ parse_market_value_to_int (.pystr "9007199254740993,0".data)
        ≠ some (pyround ⟨9007199254740993, 1⟩) := by
  refine ⟨by decide, by decide, by decide⟩

/-- Claim C9, amended: on an input of the form `<digits>,<digits>` with
exactly one comma and no suffix, the parser reads the comma as a
decimal separator and returns `int(round(float(num)))`: the decimal
rounded to the nearest binary64 double, then rounded half-to-even to an
integer — the rounded decimal value whenever the double conversion does
not move the value across a rounding boundary (so parse of `1,234` is
1, not 1234), but not in general; the strip-all-non-digit fall-through
is not reached because the single-separator pattern matches.  The bound
on the integer part keeps the value below the binary64 overflow
threshold, past which CPython raises OverflowError instead of returning
a value. -/
theorem parse_comma_decimal_separator (a b : List Char) (ha : a ≠ []) (hb : b ≠ [])
    (hda : ∀ c ∈ a, isDigitC c = true) (hdb : ∀ c ∈ b, isDigitC c = true)
    (hlen : a.length ≤ 308) :
    parse_market_value_to_int (.pystr (a ++ ',' :: b))
      = some (pyround (fracVal a (some b))) := by
  have hchars : ∀ c ∈ a ++ ',' :: b, isDigitC c = true ∨ c = ',' := by
    intro c hc
    rcases List.mem_append.mp hc with h | h
    · exact Or.inl (hda c h)
    · rcases List.mem_cons.mp h with h2 | h2
      · exact Or.inr h2
      · exact Or.inl (hdb c h2)
  have hstrip : pyStrip (a ++ ',' :: b) = a ++ ',' :: b :=
    pyStrip_eq_self _ (chars_not_space _ hchars)
  have hcomma_mem : ',' ∈ a ++ ',' :: b :=
    List.mem_append_right a (List.mem_cons_self ',' b)
  have hlow : ',' ∈ pyLowerS (a ++ ',' :: b) :=
    List.mem_map.mpr ⟨',', hcomma_mem, by decide⟩
  have hnull : ¬(a ++ ',' :: b = []
      ∨ pyLowerS (a ++ ',' :: b) = "null".data
      ∨ pyLowerS (a ++ ',' :: b) = "none".data
      ∨ pyLowerS (a ++ ',' :: b) = "nan".data) := by
    rintro (h | h | h | h)
    · rw [h] at hcomma_mem
      cases hcomma_mem
    · rw [h] at hlow
      exact absurd hlow (by decide)
    · rw [h] at hlow
      exact absurd hlow (by decide)
    · rw [h] at hlow
      exact absurd hlow (by decide)
  have hfilter : (a ++ ',' :: b).filter (fun c => c ≠ ' ') = a ++ ',' :: b := by
    apply List.filter_eq_self.mpr
    intro c hc
    rcases hchars c hc with h | h
    · simp only [decide_eq_true_eq]
      intro he
      rw [he] at h
      exact absurd h (by decide)
    · subst h
      decide
  have h1 : parse_market_value_to_int (.pystr (a ++ ',' :: b))
      = if pyStrip (a ++ ',' :: b) = []
          ∨ pyLowerS (pyStrip (a ++ ',' :: b)) = "null".data
          ∨ pyLowerS (pyStrip (a ++ ',' :: b)) = "none".data
          ∨ pyLowerS (pyStrip (a ++ ',' :: b)) = "nan".data then none
        else parseMoneyStr (pyStrip (a ++ ',' :: b)) := rfl
  rw [h1, hstrip, if_neg hnull]
  have h3 : matchMoney ((stripCurrency (a ++ ',' :: b)).filter (fun c => c ≠ ' '))
      = some (fracVal a (some b), none) := by
    rw [stripCurrency_id _ hchars, hfilter]
    exact matchMoney_sep a b ha hb hda hdb
  simp only [parseMoneyStr, h3]
  rfl

set_option maxRecDepth 8000 in
/-- Claim C9, witness: `1,234` parses to the rounded value 1, not to the
thousands-grouped 1234. -/
theorem parse_comma_decimal_separator_witness :
    parse_market_value_to_int (.pystr "1,234".data) = some 1 := by
  have h := parse_comma_decimal_separator ['1'] "234".data (by decide) (by decide)
    (by decide) (by decide) (by decide)
  have h2 : parse_market_value_to_int (.pystr "1,234".data)
      = some (pyround (fracVal ['1'] (some "234".data))) := h
  rw [h2]
  decide


end Scout
